import Mathlib

/-!
Verification of the Flow Analytics Aggregation Engine of frontend/src/App.jsx.
Numbers that JavaScript represents as IEEE doubles are modelled exactly:
integers by Nat, fractional quantities by Rat, and quantities involving
logarithms by Real.  The value Infinity used by the min selectors is modelled
by WithTop Nat.  JavaScript objects used as string-keyed maps are modelled by
insertion-ordered association lists.  Absent object fields are modelled by
Option, and the JavaScript truthiness coercions (an or-default treats 0 and
the empty string like an absent value) are embedded explicitly.
-/

set_option maxHeartbeats 1000000

namespace NetGuard

/-- Model of the toFixed(2) rounding used for display values: round half
away from zero toward the larger candidate, kept as an exact rational. -/
def round2 (q : ℚ) : ℚ := (round (q * 100) : ℤ) / 100

/-- Model of the toFixed(3) rounding. -/
def round3 (q : ℚ) : ℚ := (round (q * 1000) : ℤ) / 1000

/-- Model of the toFixed(4) rounding applied to a real entropy value. -/
noncomputable def round4R (x : ℝ) : ℝ := ((round (x * 10000) : ℤ) : ℝ) / 10000

/-- Model of String.prototype.toUpperCase on the ASCII labels the engine
handles: uppercase every character. -/
def jsToUpper (s : String) : String := String.mk (s.data.map Char.toUpper)

/-- JavaScript or-default on an optional string: undefined and the empty
string are falsy, so both fall back to the default. -/
def strOr (o : Option String) (d : String) : String :=
  match o with
  | none => d
  | some s => if s = "" then d else s

/-- JavaScript truthiness of an optional string: undefined and the empty
string are falsy. -/
def truthyS : Option String → Bool
  | none => false
  | some s => !(s == "")

/-- FlowRecord as consumed by the dashboard: every field may be absent. -/
structure Flow where
  src : Option String := none
  dst : Option String := none
  proto : Option String := none
  pkt_count : Option ℕ := none
  byte_count : Option ℕ := none
  duration : Option ℚ := none
  pkt_rate : Option ℚ := none
  byte_rate : Option ℚ := none
  avg_payload_size : Option ℚ := none
  severity : Option String := none
  reason : Option String := none
  confidence : Option ℚ := none
  is_anomaly : Bool := false
deriving DecidableEq

/-- ModelEvalStats as consumed by computeStrength. -/
structure ModelStats where
  inference_time_sec : Option ℚ := none
  anomalies_detected : Option ℕ := none
  pseudo_accuracy_pct : Option ℚ := none
  pseudo_precision_pct : Option ℚ := none
  stability_pct : Option ℚ := none
deriving DecidableEq

/-! Association-list model of a JavaScript object used as a map from string
keys to counters.  Property assignment updates an existing key in place and
appends a fresh key at the end, which is exactly the enumeration order
Object.entries and Object.values later observe. -/

/-- Read a key from the object model. -/
def getA : List (String × ℕ) → String → Option ℕ
  | [], _ => none
  | p :: t, k => if p.1 = k then some p.2 else getA t k

/-- Assign a key in the object model: update in place when present,
append at the end when absent. -/
def setA (m : List (String × ℕ)) (k : String) (v : ℕ) : List (String × ℕ) :=
  if (getA m k).isSome then m.map (fun p => if p.1 = k then (k, v) else p)
  else m ++ [(k, v)]

/-- Keys of the object model, in enumeration order. -/
def keys (m : List (String × ℕ)) : List String := m.map Prod.fst

/-- Sum of the stored values. -/
def sumVals (m : List (String × ℕ)) : ℕ := (m.map Prod.snd).sum

theorem map_id_of {α : Type} (f : α → α) :
    ∀ l : List α, (∀ a ∈ l, f a = a) → l.map f = l := by
  intro l
  induction l with
  | nil => intro _; rfl
  | cons a t ih =>
    intro h
    simp only [List.map_cons, h a (List.mem_cons_self a t),
      ih (fun b hb => h b (List.mem_cons_of_mem a hb))]

theorem getA_isSome_iff (m : List (String × ℕ)) (k : String) :
    (getA m k).isSome = true ↔ k ∈ keys m := by
  induction m with
  | nil => simp [getA, keys]
  | cons p t ih =>
    by_cases hp : p.1 = k
    · simp [getA, hp, keys]
    · simp only [getA, if_neg hp, keys, List.map_cons, List.mem_cons, ih, keys]
      constructor
      · intro h; exact Or.inr h
      · intro h
        rcases h with h | h
        · exact absurd h.symm hp
        · exact h

theorem getA_eq_none_iff (m : List (String × ℕ)) (k : String) :
    getA m k = none ↔ k ∉ keys m := by
  rw [← getA_isSome_iff, Option.not_isSome_iff_eq_none]

theorem getA_map_ne (t : List (String × ℕ)) (k : String) (v : ℕ) (k2 : String)
    (h : k2 ≠ k) :
    getA (t.map (fun p => if p.1 = k then (k, v) else p)) k2 = getA t k2 := by
  induction t with
  | nil => rfl
  | cons p r ih =>
    simp only [List.map_cons, getA]
    by_cases hp : p.1 = k
    · rw [if_pos hp]
      have hk : ¬ (k, v).1 = k2 := fun hh => h (by simpa using hh.symm)
      have hp2 : ¬ p.1 = k2 := fun hh => h (by rw [← hp, hh])
      rw [if_neg hk, if_neg hp2, ih]
    · rw [if_neg hp]
      by_cases h2 : p.1 = k2
      · rw [if_pos h2, if_pos h2]
      · rw [if_neg h2, if_neg h2, ih]

theorem getA_map_self (t : List (String × ℕ)) (k : String) (v : ℕ)
    (hin : (getA t k).isSome = true) :
    getA (t.map (fun p => if p.1 = k then (k, v) else p)) k = some v := by
  induction t with
  | nil => simp [getA] at hin
  | cons p r ih =>
    by_cases hp : p.1 = k
    · simp [getA, hp]
    · have : (getA r k).isSome = true := by simpa [getA, hp] using hin
      simp [getA, hp, ih this]

theorem getA_append_none (t : List (String × ℕ)) (k : String) (v : ℕ) (k2 : String)
    (hnone : getA t k2 = none) :
    getA (t ++ [(k, v)]) k2 = if k2 = k then some v else none := by
  induction t with
  | nil =>
    by_cases h : k = k2 <;> simp [getA, h, eq_comm]
  | cons p r ih =>
    have hp : ¬ p.1 = k2 := by
      intro hh
      simp [getA, hh] at hnone
    have : getA r k2 = none := by simpa [getA, hp] using hnone
    simp [getA, hp, ih this]

theorem getA_append_ne (t : List (String × ℕ)) (k : String) (v : ℕ) (k2 : String)
    (h : k2 ≠ k) : getA (t ++ [(k, v)]) k2 = getA t k2 := by
  induction t with
  | nil =>
    simp only [List.nil_append, getA]
    rw [if_neg (fun hh : k = k2 => h hh.symm)]
  | cons p r ih =>
    simp only [List.cons_append, getA, List.append_eq]
    by_cases hp : p.1 = k2
    · rw [if_pos hp, if_pos hp]
    · rw [if_neg hp, if_neg hp, ih]

theorem getA_setA (m : List (String × ℕ)) (k : String) (v : ℕ) (k2 : String) :
    getA (setA m k v) k2 = if k2 = k then some v else getA m k2 := by
  by_cases hin : (getA m k).isSome = true
  · by_cases h2 : k2 = k
    · subst h2
      simp [setA, hin, getA_map_self m k2 v hin]
    · simp [setA, hin, getA_map_ne m k v k2 h2, h2]
  · have hnone : getA m k = none := Option.not_isSome_iff_eq_none.mp hin
    by_cases h2 : k2 = k
    · subst h2
      simp [setA, hin, getA_append_none m k2 v k2 hnone, hnone]
    · simp [setA, hin, getA_append_ne m k v k2 h2, h2]

theorem setA_cons_ne (p : String × ℕ) (t : List (String × ℕ)) (k : String) (v : ℕ)
    (hp : p.1 ≠ k) : setA (p :: t) k v = p :: setA t k v := by
  by_cases hin : (getA t k).isSome = true
  · simp [setA, getA, hp, hin]
  · simp [setA, getA, hp, hin]

theorem keys_setA_nodup (m : List (String × ℕ)) (k : String) (v : ℕ)
    (h : (keys m).Nodup) : (keys (setA m k v)).Nodup := by
  by_cases hin : (getA m k).isSome = true
  · have : keys (setA m k v) = keys m := by
      simp only [setA, hin, if_pos, keys, List.map_map]
      apply List.map_congr_left
      intro p _
      by_cases hp : p.1 = k <;> simp [hp, Function.comp]
    rw [this]; exact h
  · have hk : k ∉ keys m := by
      rw [← getA_eq_none_iff]
      exact Option.not_isSome_iff_eq_none.mp hin
    have : keys (setA m k v) = keys m ++ [k] := by
      simp [setA, hin, keys]
    rw [this]
    simpa [List.nodup_append] using ⟨h, hk⟩

theorem sumVals_setA (m : List (String × ℕ)) (k : String) (v : ℕ)
    (h : (keys m).Nodup) :
    sumVals (setA m k v) + (getA m k).getD 0 = sumVals m + v := by
  induction m with
  | nil => simp [setA, getA, sumVals]
  | cons p t ih =>
    have hnd : (keys t).Nodup := (List.nodup_cons.mp h).2
    have hpk : p.1 ∉ keys t := (List.nodup_cons.mp h).1
    by_cases hp : p.1 = k
    · have hs : (getA (p :: t) k).isSome = true := by simp [getA, hp]
      have hmap : t.map (fun q => if q.1 = k then (k, v) else q) = t := by
        apply map_id_of
        intro a ha
        have : a.1 ≠ k := by
          intro hak
          exact hpk (by simpa [keys, hp, hak] using List.mem_map_of_mem Prod.fst ha)
        simp [this]
      simp only [setA, hs, if_pos, List.map_cons, hp, if_true, hmap]
      simp only [sumVals, List.map_cons, List.sum_cons, getA, hp, if_pos,
        Option.getD_some]
      omega
    · rw [setA_cons_ne p t k v hp]
      have hga : getA (p :: t) k = getA t k := by simp [getA, hp]
      simp only [sumVals, List.map_cons, List.sum_cons, hga]
      have := ih hnd
      simp only [sumVals] at this
      omega

/-! Generic facts about a reduce that groups flows into the object model:
each step assigns key(f) to a value computed from the previous value at
key(f) and the flow itself. -/

theorem getA_foldl_upd (key : Flow → String) (upd : Option ℕ → Flow → ℕ) :
    ∀ (l : List Flow) (m : List (String × ℕ)) (k : String),
    getA (l.foldl (fun m f => setA m (key f) (upd (getA m (key f)) f)) m) k
      = (l.filter (fun f => decide (key f = k))).foldl
          (fun o f => some (upd o f)) (getA m k) := by
  intro l
  induction l with
  | nil => intro m k; rfl
  | cons f t ih =>
    intro m k
    simp only [List.foldl_cons, List.filter_cons]
    rw [ih, getA_setA]
    by_cases hf : key f = k
    · simp [hf]
    · simp [hf, Ne.symm hf]

theorem keys_foldl_upd_nodup (key : Flow → String) (upd : Option ℕ → Flow → ℕ) :
    ∀ (l : List Flow) (m : List (String × ℕ)), (keys m).Nodup →
    (keys (l.foldl (fun m f => setA m (key f) (upd (getA m (key f)) f)) m)).Nodup := by
  intro l
  induction l with
  | nil => intro m h; exact h
  | cons f t ih =>
    intro m h
    exact ih _ (keys_setA_nodup _ _ _ h)

theorem sumVals_foldl_count (key : Flow → String) :
    ∀ (l : List Flow) (m : List (String × ℕ)), (keys m).Nodup →
    sumVals (l.foldl (fun m f => setA m (key f) ((getA m (key f)).getD 0 + 1)) m)
      = sumVals m + l.length := by
  intro l
  induction l with
  | nil => intro m _; simp
  | cons f t ih =>
    intro m h
    simp only [List.foldl_cons, List.length_cons]
    rw [ih _ (keys_setA_nodup _ _ _ h)]
    have := sumVals_setA m (key f) ((getA m (key f)).getD 0 + 1) h
    omega

theorem foldl_count_some (c : ℕ) :
    ∀ (l : List Flow),
    l.foldl (fun (o : Option ℕ) (_ : Flow) => some (o.getD 0 + 1)) (some c)
      = some (c + l.length) := by
  intro l
  induction l generalizing c with
  | nil => simp
  | cons f t ih =>
    simp only [List.foldl_cons, Option.getD_some, List.length_cons]
    rw [ih]
    congr 1
    omega

/-! The aggregation engine definitions, embedded from frontend/src/App.jsx. -/

/-- Severity bucket of a flow: absent or empty severity falls back to LOW,
then the label is uppercased, as in (f.severity or LOW).toUpperCase(). -/
def sevKey (f : Flow) : String := jsToUpper (strOr f.severity "LOW")

/-- Protocol bucket of a flow, as in (f.proto or UNKNOWN).toUpperCase(). -/
def protoKey (f : Flow) : String := jsToUpper (strOr f.proto "UNKNOWN")

/-- Severity histogram: reduce the flows into a map counting each bucket,
then list its entries in insertion order. -/
def severityData (flows : List Flow) : List (String × ℕ) :=
  flows.foldl (fun acc f => setA acc (sevKey f) ((getA acc (sevKey f)).getD 0 + 1)) []

/-- Protocol histogram, same accumulation keyed by protocol. -/
def protocolData (flows : List Flow) : List (String × ℕ) :=
  flows.foldl (fun acc f => setA acc (protoKey f) ((getA acc (protoKey f)).getD 0 + 1)) []

/-- Source-address key of the top-talker accumulation: absent or empty src
falls back to the label unknown. -/
def srcKey (f : Flow) : String := strOr f.src "unknown"

/-- Destination-address key of the top-talker accumulation. -/
def dstKey (f : Flow) : String := strOr f.dst "unknown"

/-- One top-talker accumulation step: the new stored value is
(previous + pkt_count) with the or-1 fallback applied to the whole sum, as
in map s assigned (map s or 0) + (f.pkt_count or 0) or 1. -/
def weightUpd (o : Option ℕ) (f : Flow) : ℕ :=
  if o.getD 0 + (f.pkt_count).getD 0 = 0 then 1 else o.getD 0 + (f.pkt_count).getD 0

/-- Per-source accumulated weights, in insertion order. -/
def srcWeightMap (flows : List Flow) : List (String × ℕ) :=
  flows.foldl (fun m f => setA m (srcKey f) (weightUpd (getA m (srcKey f)) f)) []

/-- Per-destination accumulated weights. -/
def dstWeightMap (flows : List Flow) : List (String × ℕ) :=
  flows.foldl (fun m f => setA m (dstKey f) (weightUpd (getA m (dstKey f)) f)) []

/-- Stable insertion of an entry into a list sorted by descending weight:
the entry passes every strictly heavier earlier entry and stops before the
first entry that is not heavier, which models the stable sort with
comparator b minus a. -/
def insertDesc (x : String × ℕ) : List (String × ℕ) → List (String × ℕ)
  | [] => [x]
  | y :: ys => if x.2 < y.2 then y :: insertDesc x ys else x :: y :: ys

/-- Stable sort by descending weight. -/
def sortDesc : List (String × ℕ) → List (String × ℕ)
  | [] => []
  | x :: t => insertDesc x (sortDesc t)

/-- Top five sources by accumulated weight, as (address, weight) pairs. -/
def topSources (flows : List Flow) : List (String × ℕ) :=
  (sortDesc (srcWeightMap flows)).take 5

/-- Top five destinations by accumulated weight. -/
def topDestinations (flows : List Flow) : List (String × ℕ) :=
  (sortDesc (dstWeightMap flows)).take 5

/-- Number of flows flagged anomalous. -/
def totalAnomalies (flows : List Flow) : ℕ :=
  (flows.filter (fun f => f.is_anomaly)).length

/-- Anomaly percentage: (anomalies over total) times 100 rounded to two
decimals when the list is non-empty, and exactly 0.00 otherwise. -/
def anomalyRatioQ (flows : List Flow) : ℚ :=
  if 0 < flows.length then
    round2 ((totalAnomalies flows : ℚ) / (flows.length : ℚ) * 100)
  else 0

/-- Mean packet rate over the flows whose pkt_rate is a number, rounded to
three decimals; 0 when no flow qualifies. -/
def avg_pkt_rate (flows : List Flow) : ℚ :=
  let arr := (flows.map (fun f => f.pkt_rate)).filterMap id
  if arr.length = 0 then 0
  else round3 (arr.foldl (· + ·) 0 / (arr.length : ℚ))

/-- Mean byte rate over the eligible flows, rounded to three decimals. -/
def avg_byte_rate (flows : List Flow) : ℚ :=
  let arr := (flows.map (fun f => f.byte_rate)).filterMap id
  if arr.length = 0 then 0
  else round3 (arr.foldl (· + ·) 0 / (arr.length : ℚ))

/-- Mean payload size over the eligible flows, rounded to two decimals. -/
def avg_payload (flows : List Flow) : ℚ :=
  let arr := (flows.map (fun f => f.avg_payload_size)).filterMap id
  if arr.length = 0 then 0
  else round2 (arr.foldl (· + ·) 0 / (arr.length : ℚ))

/-- Mean duration over the eligible flows, rounded to three decimals. -/
def avg_duration (flows : List Flow) : ℚ :=
  let arr := (flows.map (fun f => f.duration)).filterMap id
  if arr.length = 0 then 0
  else round3 (arr.foldl (· + ·) 0 / (arr.length : ℚ))

/-- Total byte count, missing byte_count contributing 0. -/
def total_bytes (flows : List Flow) : ℕ :=
  flows.foldl (fun s f => s + (f.byte_count).getD 0) 0

/-- Cardinality of the set of distinct truthy src values. -/
def unique_src_ips (flows : List Flow) : ℕ :=
  ((flows.map (fun f => f.src)).filterMap id).filter (fun s => !(s == "")) |>.dedup.length

/-- Cardinality of the set of distinct truthy dst values. -/
def unique_dst_ips (flows : List Flow) : ℕ :=
  ((flows.map (fun f => f.dst)).filterMap id).filter (fun s => !(s == "")) |>.dedup.length

/-- Shannon entropy of a frequency list, in bits: the running value
subtracts p log2 p for every positive count, skipping the rest, and the
result is rounded to four decimals; a zero total short-circuits to 0. -/
noncomputable def entropyFromCounts (counts : List ℕ) : ℝ :=
  let total := counts.sum
  if total = 0 then 0
  else round4R (counts.foldl
    (fun (ent : ℝ) (c : ℕ) =>
      if c ≤ 0 then ent
      else ent - ((c : ℝ) / (total : ℝ)) * Real.logb 2 ((c : ℝ) / (total : ℝ)))
    0)

/-- Frequency map of truthy source addresses. -/
def srcFreqMap (flows : List Flow) : List (String × ℕ) :=
  flows.foldl
    (fun m f =>
      if truthyS f.src then
        setA m ((f.src).getD "") ((getA m ((f.src).getD "")).getD 0 + 1)
      else m)
    []

/-- Frequency map of truthy destination addresses. -/
def dstFreqMap (flows : List Flow) : List (String × ℕ) :=
  flows.foldl
    (fun m f =>
      if truthyS f.dst then
        setA m ((f.dst).getD "") ((getA m ((f.dst).getD "")).getD 0 + 1)
      else m)
    []

/-- Source-address entropy: entropy of the frequency values. -/
noncomputable def srcEntropy (flows : List Flow) : ℝ :=
  entropyFromCounts ((srcFreqMap flows).map Prod.snd)

/-- Destination-address entropy. -/
noncomputable def dstEntropy (flows : List Flow) : ℝ :=
  entropyFromCounts ((dstFreqMap flows).map Prod.snd)

/-- Packet-count key of the max selector: an absent pkt_count defaults
to 0 via the or-coercion. -/
def pktMaxKey (f : Flow) : ℕ := (f.pkt_count).getD 0

/-- Packet-count key of the min selector: an absent pkt_count and a
present 0 are both falsy, so both coerce to Infinity. -/
def pktMinKey (f : Flow) : WithTop ℕ :=
  match f.pkt_count with
  | none => ⊤
  | some v => if v = 0 then ⊤ else (v : WithTop ℕ)

/-- Byte-count key of the max selector. -/
def byteMaxKey (f : Flow) : ℕ := (f.byte_count).getD 0

/-- Byte-count key of the min selector. -/
def byteMinKey (f : Flow) : WithTop ℕ :=
  match f.byte_count with
  | none => ⊤
  | some v => if v = 0 then ⊤ else (v : WithTop ℕ)

/-- Reduce over the flows keeping the first flow whose key is strictly
below the best so far, starting from null. -/
def pickMin {k : Type} [LinearOrder k] (key : Flow → k) (flows : List Flow) :
    Option Flow :=
  flows.foldl
    (fun best f =>
      match best with
      | none => some f
      | some b => if key f < key b then some f else some b)
    none

/-- Reduce over the flows keeping the first flow whose key is strictly
above the best so far, starting from null. -/
def pickMax {k : Type} [LinearOrder k] (key : Flow → k) (flows : List Flow) :
    Option Flow :=
  flows.foldl
    (fun best f =>
      match best with
      | none => some f
      | some b => if key f > key b then some f else some b)
    none

/-- Flow with the maximal packet count, null on an empty list. -/
def max_pkt_flow (flows : List Flow) : Option Flow :=
  if flows.length = 0 then none else pickMax pktMaxKey flows

/-- Flow with the minimal packet count under the Infinity coercion. -/
def min_pkt_flow (flows : List Flow) : Option Flow :=
  if flows.length = 0 then none else pickMin pktMinKey flows

/-- Flow with the maximal byte count. -/
def max_byte_flow (flows : List Flow) : Option Flow :=
  if flows.length = 0 then none else pickMax byteMaxKey flows

/-- Flow with the minimal byte count under the Infinity coercion. -/
def min_byte_flow (flows : List Flow) : Option Flow :=
  if flows.length = 0 then none else pickMin byteMinKey flows

/-- Maximal inference time across the models, spread into Math.max together
with the epsilon 0.000001. -/
def maxTimeOf (evals : List (String × ModelStats)) : ℚ :=
  (evals.map (fun p => (p.2.inference_time_sec).getD 0)).foldl max 0.000001

/-- Strength score of one model given the whole evaluation map. -/
def computeStrength (evals : List (String × ModelStats)) (stats : ModelStats) : ℚ :=
  let accuracy := (stats.pseudo_accuracy_pct).getD 0
  let precision := (stats.pseudo_precision_pct).getD 0
  let stability := (stats.stability_pct).getD 0
  let time := (stats.inference_time_sec).getD 0
  let maxTime := maxTimeOf evals
  let timeScaled := if 0 < maxTime then time / maxTime * 100 else 0
  round2 (0.30 * accuracy + 0.25 * precision + 0.25 * stability - 0.20 * timeScaled)

/-- Everything the dashboard derives from one input batch. -/
structure Report where
  severityHist : List (String × ℕ)
  protocolHist : List (String × ℕ)
  topSrc : List (String × ℕ)
  topDst : List (String × ℕ)
  nFlows : ℕ
  nAnomalies : ℕ
  anomalyPct : ℚ
  bytesTotal : ℕ
  pktRateMean : ℚ
  byteRateMean : ℚ
  payloadMean : ℚ
  durationMean : ℚ
  uniqueSrc : ℕ
  uniqueDst : ℕ
  srcEnt : ℝ
  dstEnt : ℝ
  maxPkt : Option Flow
  minPkt : Option Flow
  maxByte : Option Flow
  minByte : Option Flow
  strengths : List (String × ℚ)

/-- The whole engine: assemble every derived field from the flow list and
the model-evaluation map. -/
noncomputable def buildReport (flows : List Flow)
    (evals : List (String × ModelStats)) : Report where
  severityHist := severityData flows
  protocolHist := protocolData flows
  topSrc := topSources flows
  topDst := topDestinations flows
  nFlows := flows.length
  nAnomalies := totalAnomalies flows
  anomalyPct := anomalyRatioQ flows
  bytesTotal := total_bytes flows
  pktRateMean := avg_pkt_rate flows
  byteRateMean := avg_byte_rate flows
  payloadMean := avg_payload flows
  durationMean := avg_duration flows
  uniqueSrc := unique_src_ips flows
  uniqueDst := unique_dst_ips flows
  srcEnt := srcEntropy flows
  dstEnt := dstEntropy flows
  maxPkt := max_pkt_flow flows
  minPkt := min_pkt_flow flows
  maxByte := max_byte_flow flows
  minByte := min_byte_flow flows
  strengths := evals.map (fun p => (p.1, computeStrength evals p.2))

/-! Spec of the first-wins extremal reduce. -/

theorem foldl_stepMin_spec {k : Type} [LinearOrder k] (key : Flow → k) :
    ∀ (t : List Flow) (b : Flow),
    (t.foldl (fun b f => if key f < key b then f else b) b = b
        ∧ ∀ z ∈ t, key b ≤ key z)
    ∨ (∃ y pre post, t = pre ++ y :: post
        ∧ t.foldl (fun b f => if key f < key b then f else b) b = y
        ∧ key y < key b ∧ (∀ z ∈ pre, key y < key z) ∧ (∀ z ∈ post, key y ≤ key z)) := by
  intro t
  induction t with
  | nil => intro b; exact Or.inl ⟨rfl, by simp⟩
  | cons f t ih =>
    intro b
    simp only [List.foldl_cons]
    by_cases hf : key f < key b
    · rw [if_pos hf]
      rcases ih f with ⟨hres, hall⟩ | ⟨y, pre, post, hsplit, hres, hlt, hpre, hpost⟩
      · exact Or.inr ⟨f, [], t, by simp, hres, hf, by simp, hall⟩
      · refine Or.inr ⟨y, f :: pre, post, by simp [hsplit], hres,
          lt_trans hlt hf, ?_, hpost⟩
        intro z hz
        rcases List.mem_cons.mp hz with h | h
        · subst h; exact hlt
        · exact hpre z h
    · rw [if_neg hf]
      rcases ih b with ⟨hres, hall⟩ | ⟨y, pre, post, hsplit, hres, hlt, hpre, hpost⟩
      · refine Or.inl ⟨hres, ?_⟩
        intro z hz
        rcases List.mem_cons.mp hz with h | h
        · subst h; exact not_lt.mp hf
        · exact hall z h
      · refine Or.inr ⟨y, f :: pre, post, by simp [hsplit], hres, hlt, ?_, hpost⟩
        intro z hz
        rcases List.mem_cons.mp hz with h | h
        · subst h; exact lt_of_lt_of_le hlt (not_lt.mp hf)
        · exact hpre z h

theorem foldl_stepMax_spec {k : Type} [LinearOrder k] (key : Flow → k) :
    ∀ (t : List Flow) (b : Flow),
    (t.foldl (fun b f => if key f > key b then f else b) b = b
        ∧ ∀ z ∈ t, key z ≤ key b)
    ∨ (∃ y pre post, t = pre ++ y :: post
        ∧ t.foldl (fun b f => if key f > key b then f else b) b = y
        ∧ key b < key y ∧ (∀ z ∈ pre, key z < key y) ∧ (∀ z ∈ post, key z ≤ key y)) := by
  intro t
  induction t with
  | nil => intro b; exact Or.inl ⟨rfl, by simp⟩
  | cons f t ih =>
    intro b
    simp only [List.foldl_cons]
    by_cases hf : key f > key b
    · rw [if_pos hf]
      rcases ih f with ⟨hres, hall⟩ | ⟨y, pre, post, hsplit, hres, hlt, hpre, hpost⟩
      · exact Or.inr ⟨f, [], t, by simp, hres, hf, by simp, hall⟩
      · refine Or.inr ⟨y, f :: pre, post, by simp [hsplit], hres,
          lt_trans hf hlt, ?_, hpost⟩
        intro z hz
        rcases List.mem_cons.mp hz with h | h
        · subst h; exact hlt
        · exact hpre z h
    · rw [if_neg hf]
      rcases ih b with ⟨hres, hall⟩ | ⟨y, pre, post, hsplit, hres, hlt, hpre, hpost⟩
      · refine Or.inl ⟨hres, ?_⟩
        intro z hz
        rcases List.mem_cons.mp hz with h | h
        · subst h; exact not_lt.mp hf
        · exact hall z h
      · refine Or.inr ⟨y, f :: pre, post, by simp [hsplit], hres, hlt, ?_, hpost⟩
        intro z hz
        rcases List.mem_cons.mp hz with h | h
        · subst h; exact lt_of_le_of_lt (not_lt.mp hf) hlt
        · exact hpre z h

theorem pickMin_eq_foldl {k : Type} [LinearOrder k] (key : Flow → k) :
    ∀ (t : List Flow) (b : Flow),
    t.foldl
      (fun best f =>
        match best with
        | none => some f
        | some b => if key f < key b then some f else some b)
      (some b)
    = some (t.foldl (fun b f => if key f < key b then f else b) b) := by
  intro t
  induction t with
  | nil => intro b; rfl
  | cons f t ih =>
    intro b
    simp only [List.foldl_cons]
    by_cases hf : key f < key b <;> simp [hf, ih]

theorem pickMax_eq_foldl {k : Type} [LinearOrder k] (key : Flow → k) :
    ∀ (t : List Flow) (b : Flow),
    t.foldl
      (fun best f =>
        match best with
        | none => some f
        | some b => if key f > key b then some f else some b)
      (some b)
    = some (t.foldl (fun b f => if key f > key b then f else b) b) := by
  intro t
  induction t with
  | nil => intro b; rfl
  | cons f t ih =>
    intro b
    simp only [List.foldl_cons]
    by_cases hf : key f > key b <;> simp [hf, ih]

theorem pickMin_spec {k : Type} [LinearOrder k] (key : Flow → k) (l : List Flow)
    (h : l ≠ []) :
    ∃ y pre post, pickMin key l = some y ∧ l = pre ++ y :: post
      ∧ (∀ z ∈ pre, key y < key z) ∧ (∀ z ∈ l, key y ≤ key z) := by
  match l, h with
  | b :: t, _ =>
    have hfold : pickMin key (b :: t)
        = some (t.foldl (fun b f => if key f < key b then f else b) b) := by
      simp only [pickMin, List.foldl_cons]
      exact pickMin_eq_foldl key t b
    rcases foldl_stepMin_spec key t b with ⟨hres, hall⟩ |
        ⟨y, pre, post, hsplit, hres, hlt, hpre, hpost⟩
    · refine ⟨b, [], t, by rw [hfold, hres], by simp, by simp, ?_⟩
      intro z hz
      rcases List.mem_cons.mp hz with hh | hh
      · subst hh; exact le_refl _
      · exact hall z hh
    · refine ⟨y, b :: pre, post, by rw [hfold, hres], by simp [hsplit], ?_, ?_⟩
      · intro z hz
        rcases List.mem_cons.mp hz with hh | hh
        · subst hh; exact hlt
        · exact hpre z hh
      · intro z hz
        rcases List.mem_cons.mp hz with hh | hh
        · subst hh; exact le_of_lt hlt
        · rw [hsplit] at hh
          rcases List.mem_append.mp hh with hh | hh
          · exact le_of_lt (hpre z hh)
          · rcases List.mem_cons.mp hh with hh | hh
            · subst hh; exact le_refl _
            · exact hpost z hh

theorem pickMax_spec {k : Type} [LinearOrder k] (key : Flow → k) (l : List Flow)
    (h : l ≠ []) :
    ∃ y pre post, pickMax key l = some y ∧ l = pre ++ y :: post
      ∧ (∀ z ∈ pre, key z < key y) ∧ (∀ z ∈ l, key z ≤ key y) := by
  match l, h with
  | b :: t, _ =>
    have hfold : pickMax key (b :: t)
        = some (t.foldl (fun b f => if key f > key b then f else b) b) := by
      simp only [pickMax, List.foldl_cons]
      exact pickMax_eq_foldl key t b
    rcases foldl_stepMax_spec key t b with ⟨hres, hall⟩ |
        ⟨y, pre, post, hsplit, hres, hlt, hpre, hpost⟩
    · refine ⟨b, [], t, by rw [hfold, hres], by simp, by simp, ?_⟩
      intro z hz
      rcases List.mem_cons.mp hz with hh | hh
      · subst hh; exact le_refl _
      · exact hall z hh
    · refine ⟨y, b :: pre, post, by rw [hfold, hres], by simp [hsplit], ?_, ?_⟩
      · intro z hz
        rcases List.mem_cons.mp hz with hh | hh
        · subst hh; exact hlt
        · exact hpre z hh
      · intro z hz
        rcases List.mem_cons.mp hz with hh | hh
        · subst hh; exact le_of_lt hlt
        · rw [hsplit] at hh
          rcases List.mem_append.mp hh with hh | hh
          · exact le_of_lt (hpre z hh)
          · rcases List.mem_cons.mp hh with hh | hh
            · subst hh; exact le_refl _
            · exact hpost z hh

theorem pktMinKey_eq_top_iff (f : Flow) :
    pktMinKey f = ⊤ ↔ (f.pkt_count).getD 0 = 0 := by
  cases h : f.pkt_count with
  | none => simp [pktMinKey, h]
  | some v => by_cases hv : v = 0 <;> simp [pktMinKey, h, hv]

theorem byteMinKey_eq_top_iff (f : Flow) :
    byteMinKey f = ⊤ ↔ (f.byte_count).getD 0 = 0 := by
  cases h : f.byte_count with
  | none => simp [byteMinKey, h]
  | some v => by_cases hv : v = 0 <;> simp [byteMinKey, h, hv]

/-! Helper lemmas for the entropy computation. -/

theorem foldl_ent_eq (s : ℝ) :
    ∀ (l : List ℕ) (a : ℝ),
    l.foldl
      (fun (ent : ℝ) (c : ℕ) =>
        if c ≤ 0 then ent
        else ent - ((c : ℝ) / s) * Real.logb 2 ((c : ℝ) / s)) a
      = a - (((l.filter (fun c => decide (0 < c))).map
          (fun (c : ℕ) => ((c : ℝ) / s) * Real.logb 2 ((c : ℝ) / s))).sum) := by
  intro l
  induction l with
  | nil => intro a; simp
  | cons c t ih =>
    intro a
    by_cases hc : c = 0
    · have h1 : c ≤ 0 := by omega
      rw [List.foldl_cons, if_pos h1,
        List.filter_cons_of_neg (by simp; omega), ih]
    · have h1 : ¬ c ≤ 0 := by omega
      rw [List.foldl_cons, if_neg h1,
        List.filter_cons_of_pos (by simp; omega), List.map_cons,
        List.sum_cons, ih]
      ring

theorem sum_filter_pos (l : List ℕ) :
    (l.filter (fun c => decide (0 < c))).sum = l.sum := by
  induction l with
  | nil => rfl
  | cons c t ih =>
    by_cases hc : c = 0
    · simp [hc, List.filter_cons, ih]
    · have h2 : 0 < c := by omega
      simp [List.filter_cons, h2, ih]

theorem filter_pos_idem (l : List ℕ) :
    (l.filter (fun c => decide (0 < c))).filter (fun c => decide (0 < c))
      = l.filter (fun c => decide (0 < c)) := by
  induction l with
  | nil => rfl
  | cons c t ih =>
    by_cases hc : 0 < c
    · simp [List.filter_cons, hc, ih]
    · simp [List.filter_cons, hc, ih]

/-- Closed form of the entropy computation: on a nonzero total it is the
rounded negated sum of p log2 p over the positive counts. -/
theorem entropyFromCounts_eq (counts : List ℕ) :
    entropyFromCounts counts =
      if counts.sum = 0 then 0
      else round4R (-(((counts.filter (fun c => decide (0 < c))).map
        (fun (c : ℕ) => ((c : ℝ) / (counts.sum : ℝ))
          * Real.logb 2 ((c : ℝ) / (counts.sum : ℝ)))).sum)) := by
  by_cases h : counts.sum = 0
  · simp [entropyFromCounts, h]
  · simp only [entropyFromCounts, h, if_false]
    rw [foldl_ent_eq]
    norm_num

/-! Helper lemmas for sums and maxima used by the statistics claims. -/

theorem foldl_add_eq_sum :
    ∀ (l : List ℚ) (a : ℚ), l.foldl (· + ·) a = a + l.sum := by
  intro l
  induction l with
  | nil => intro a; simp
  | cons q t ih =>
    intro a
    simp only [List.foldl_cons, List.sum_cons, ih]
    ring

theorem foldl_add_nat_eq_sum (val : Flow → ℕ) :
    ∀ (l : List Flow) (a : ℕ),
    l.foldl (fun s f => s + val f) a = a + (l.map val).sum := by
  intro l
  induction l with
  | nil => intro a; simp
  | cons f t ih =>
    intro a
    simp only [List.foldl_cons, List.map_cons, List.sum_cons, ih]
    omega

theorem length_filterMap_eq_countP {α β : Type} (g : α → Option β) (l : List α) :
    (l.filterMap g).length = l.countP (fun a => (g a).isSome) := by
  induction l with
  | nil => rfl
  | cons a t ih =>
    cases h : g a with
    | none => simp [List.filterMap_cons, h, List.countP_cons, ih]
    | some b => simp [List.filterMap_cons, h, List.countP_cons, ih]

theorem le_foldl_max :
    ∀ (l : List ℚ) (a : ℚ), a ≤ l.foldl max a := by
  intro l
  induction l with
  | nil => intro a; exact le_refl a
  | cons q t ih =>
    intro a
    exact le_trans (le_max_left a q) (ih (max a q))

theorem mem_le_foldl_max :
    ∀ (l : List ℚ) (a : ℚ), ∀ q ∈ l, q ≤ l.foldl max a := by
  intro l
  induction l with
  | nil => intro a q hq; simp at hq
  | cons p t ih =>
    intro a q hq
    rcases List.mem_cons.mp hq with h | h
    · subst h
      exact le_trans (le_max_right a q) (le_foldl_max t (max a q))
    · exact ih (max a p) q h

theorem foldl_max_of_le :
    ∀ (l : List ℚ) (a : ℚ), (∀ q ∈ l, q ≤ a) → l.foldl max a = a := by
  intro l
  induction l with
  | nil => intro a _; rfl
  | cons q t ih =>
    intro a h
    have hq : q ≤ a := h q (List.mem_cons_self q t)
    simp only [List.foldl_cons, max_eq_left hq]
    exact ih a (fun p hp => h p (List.mem_cons_of_mem q hp))

/-- Mean machinery shared by the four averages: the filtered array has one
entry per flow whose field is a number, and its reduce is its sum. -/
theorem avg_generic (g : Flow → Option ℚ) (flows : List Flow) :
    ((flows.map g).filterMap id).length = flows.countP (fun f => (g f).isSome)
    ∧ ((flows.map g).filterMap id).foldl (· + ·) 0 = (flows.filterMap g).sum := by
  constructor
  · rw [List.filterMap_map, Function.id_comp, length_filterMap_eq_countP]
  · rw [List.filterMap_map, Function.id_comp, foldl_add_eq_sum, zero_add]

/-- A guarded fold skips exactly the elements the guard rejects. -/
theorem foldl_guard_filter {α β : Type} (p : α → Bool) (g : β → α → β) :
    ∀ (l : List α) (m : β),
    l.foldl (fun m f => if p f then g m f else m) m = (l.filter p).foldl g m := by
  intro l
  induction l with
  | nil => intro m; rfl
  | cons a t ih =>
    intro m
    by_cases ha : p a
    · rw [List.foldl_cons, if_pos ha, List.filter_cons_of_pos ha,
        List.foldl_cons, ih]
    · rw [List.foldl_cons, if_neg ha, List.filter_cons_of_neg ha, ih]

/-! Concrete inputs used by the witnesses and counterexamples. -/

/-- A flow with every field absent. -/
def flowEmpty : Flow := {}

/-- A flow whose only present field is the source address A. -/
def flowSrcA : Flow := { src := some "A" }

/-- A flow carrying an explicit zero pkt_count. -/
def flowZeroP : Flow := { pkt_count := some 0 }

/-- A flow carrying a positive pkt_count and byte_count. -/
def flowPos : Flow := { pkt_count := some 3, byte_count := some 7 }

/-- A model-evaluation entry with every metric absent. -/
def statsZ : ModelStats := {}

/-- C5. StatisticalSummarizer anomaly ratio: for every flow list, the
anomaly percentage is exactly 0.00 when there are no flows, and otherwise
is (anomalies over total) times 100 rounded to 2 decimals, where the
anomaly count counts the flows whose is_anomaly flag is true. -/
theorem anomaly_percentage_spec : ∀ flows : List Flow,
    anomalyRatioQ flows =
      if flows.length = 0 then 0
      else round2 ((flows.countP (fun f => f.is_anomaly) : ℚ)
        / (flows.length : ℚ) * 100) := by
  intro flows
  by_cases h : flows.length = 0
  · simp [anomalyRatioQ, h]
  · have h0 : 0 < flows.length := Nat.pos_of_ne_zero h
    simp only [anomalyRatioQ, if_pos h0, if_neg h, totalAnomalies]
    rw [List.countP_eq_length_filter]

/-- C7. StatisticalSummarizer means: each mean is computed only over the
flows whose field is a number, excluded entries count in neither the
numerator nor the denominator; an empty eligible set gives 0; the rate and
duration means round to 3 decimals and the payload mean to 2. -/
theorem means_spec : ∀ flows : List Flow,
    (avg_pkt_rate flows =
      if flows.countP (fun f => (f.pkt_rate).isSome) = 0 then 0
      else round3 ((flows.filterMap (fun f => f.pkt_rate)).sum
        / (flows.countP (fun f => (f.pkt_rate).isSome) : ℚ)))
    ∧ (avg_byte_rate flows =
      if flows.countP (fun f => (f.byte_rate).isSome) = 0 then 0
      else round3 ((flows.filterMap (fun f => f.byte_rate)).sum
        / (flows.countP (fun f => (f.byte_rate).isSome) : ℚ)))
    ∧ (avg_payload flows =
      if flows.countP (fun f => (f.avg_payload_size).isSome) = 0 then 0
      else round2 ((flows.filterMap (fun f => f.avg_payload_size)).sum
        / (flows.countP (fun f => (f.avg_payload_size).isSome) : ℚ)))
    ∧ (avg_duration flows =
      if flows.countP (fun f => (f.duration).isSome) = 0 then 0
      else round3 ((flows.filterMap (fun f => f.duration)).sum
        / (flows.countP (fun f => (f.duration).isSome) : ℚ))) := by
  intro flows
  refine ⟨?_, ?_, ?_, ?_⟩
  · simp only [avg_pkt_rate]
    rw [(avg_generic (fun f => f.pkt_rate) flows).1,
      (avg_generic (fun f => f.pkt_rate) flows).2]
  · simp only [avg_byte_rate]
    rw [(avg_generic (fun f => f.byte_rate) flows).1,
      (avg_generic (fun f => f.byte_rate) flows).2]
  · simp only [avg_payload]
    rw [(avg_generic (fun f => f.avg_payload_size) flows).1,
      (avg_generic (fun f => f.avg_payload_size) flows).2]
  · simp only [avg_duration]
    rw [(avg_generic (fun f => f.duration) flows).1,
      (avg_generic (fun f => f.duration) flows).2]

/-- C8. Determinism of the whole engine: equal inputs give an equal
report; the computation reads nothing but its inputs. -/
theorem engine_deterministic :
    ∀ (f1 f2 : List Flow) (e1 e2 : List (String × ModelStats)),
    f1 = f2 → e1 = e2 → buildReport f1 e1 = buildReport f2 e2 := by
  intro f1 f2 e1 e2 h1 h2
  rw [h1, h2]

/-- Witness for C8 at a concrete input. -/
theorem engine_deterministic_witness :
    buildReport [flowSrcA] [("m1", statsZ)] = buildReport [flowSrcA] [("m1", statsZ)] :=
  engine_deterministic [flowSrcA] [flowSrcA] [("m1", statsZ)] [("m1", statsZ)] rfl rfl

/-- C10. The source and destination entropies ignore flows whose address
is absent or empty: the entropy equals that of the list restricted to
flows with a truthy address, and a list of only address-less flows has
entropy 0. -/
theorem entropy_excludes_missing : ∀ flows : List Flow,
    (srcEntropy flows = srcEntropy (flows.filter (fun f => truthyS f.src)))
    ∧ (dstEntropy flows = dstEntropy (flows.filter (fun f => truthyS f.dst)))
    ∧ ((∀ f ∈ flows, truthyS f.src = false) → srcEntropy flows = 0)
    ∧ ((∀ f ∈ flows, truthyS f.dst = false) → dstEntropy flows = 0) := by
  intro flows
  have hsrc : ∀ l : List Flow, srcFreqMap l
      = (l.filter (fun f => truthyS f.src)).foldl
          (fun m f => setA m ((f.src).getD "") ((getA m ((f.src).getD "")).getD 0 + 1))
          [] := by
    intro l
    rw [srcFreqMap, foldl_guard_filter]
  have hdst : ∀ l : List Flow, dstFreqMap l
      = (l.filter (fun f => truthyS f.dst)).foldl
          (fun m f => setA m ((f.dst).getD "") ((getA m ((f.dst).getD "")).getD 0 + 1))
          [] := by
    intro l
    rw [dstFreqMap, foldl_guard_filter]
  have hs : srcFreqMap flows = srcFreqMap (flows.filter (fun f => truthyS f.src)) := by
    rw [hsrc flows, hsrc (flows.filter (fun f => truthyS f.src)),
      List.filter_filter]
    simp
  have hd : dstFreqMap flows = dstFreqMap (flows.filter (fun f => truthyS f.dst)) := by
    rw [hdst flows, hdst (flows.filter (fun f => truthyS f.dst)),
      List.filter_filter]
    simp
  refine ⟨by rw [srcEntropy, hs, srcEntropy], by rw [dstEntropy, hd, dstEntropy],
    ?_, ?_⟩
  · intro hall
    have : flows.filter (fun f => truthyS f.src) = [] :=
      List.filter_eq_nil_iff.mpr (fun f hf => by simp [hall f hf])
    rw [srcEntropy, hs, this]
    simp [srcFreqMap, entropyFromCounts]
  · intro hall
    have : flows.filter (fun f => truthyS f.dst) = [] :=
      List.filter_eq_nil_iff.mpr (fun f hf => by simp [hall f hf])
    rw [dstEntropy, hd, this]
    simp [dstFreqMap, entropyFromCounts]

/-- Witness for C10: a batch consisting of one address-less flow has zero
source and destination entropy. -/
theorem entropy_excludes_missing_witness :
    srcEntropy [flowEmpty] = 0 ∧ dstEntropy [flowEmpty] = 0 :=
  ⟨(entropy_excludes_missing [flowEmpty]).2.2.1 (by decide),
   (entropy_excludes_missing [flowEmpty]).2.2.2 (by decide)⟩

/-- C2. ModelStrengthScorer: the score is the rounded weighted formula
with timeScaled the time share of the epsilon-floored maximum; the maximum
dominates every model time and is at least the epsilon; all-zero times
floor the maximum at the epsilon and drop the time penalty; models with
identical metric fields score identically. -/
theorem modelStrength_formula :
    ∀ (evals : List (String × ModelStats)) (stats : ModelStats),
    (computeStrength evals stats
        = round2 (0.30 * (stats.pseudo_accuracy_pct).getD 0
            + 0.25 * (stats.pseudo_precision_pct).getD 0
            + 0.25 * (stats.stability_pct).getD 0
            - 0.20 * ((stats.inference_time_sec).getD 0 / maxTimeOf evals * 100)))
    ∧ ((1 / 1000000 : ℚ) ≤ maxTimeOf evals)
    ∧ (∀ p ∈ evals, (p.2.inference_time_sec).getD 0 ≤ maxTimeOf evals)
    ∧ ((∀ p ∈ evals, (p.2.inference_time_sec).getD 0 = 0) →
        maxTimeOf evals = 1 / 1000000
        ∧ ((stats.inference_time_sec).getD 0 = 0 →
            computeStrength evals stats
              = round2 (0.30 * (stats.pseudo_accuracy_pct).getD 0
                  + 0.25 * (stats.pseudo_precision_pct).getD 0
                  + 0.25 * (stats.stability_pct).getD 0)))
    ∧ (∀ s2 : ModelStats,
        s2.pseudo_accuracy_pct = stats.pseudo_accuracy_pct →
        s2.pseudo_precision_pct = stats.pseudo_precision_pct →
        s2.stability_pct = stats.stability_pct →
        s2.inference_time_sec = stats.inference_time_sec →
        computeStrength evals s2 = computeStrength evals stats) := by
  intro evals stats
  have heps : (1 / 1000000 : ℚ) ≤ maxTimeOf evals := by
    have h := le_foldl_max
      (evals.map (fun p => (p.2.inference_time_sec).getD 0)) 0.000001
    calc (1 / 1000000 : ℚ) = 0.000001 := by norm_num
      _ ≤ _ := h
  have hpos : 0 < maxTimeOf evals := lt_of_lt_of_le (by norm_num) heps
  have hmem : ∀ p ∈ evals, (p.2.inference_time_sec).getD 0 ≤ maxTimeOf evals := by
    intro p hp
    exact mem_le_foldl_max _ _ _
      (List.mem_map_of_mem (fun p => (p.2.inference_time_sec).getD 0) hp)
  have hmain : computeStrength evals stats
      = round2 (0.30 * (stats.pseudo_accuracy_pct).getD 0
          + 0.25 * (stats.pseudo_precision_pct).getD 0
          + 0.25 * (stats.stability_pct).getD 0
          - 0.20 * ((stats.inference_time_sec).getD 0 / maxTimeOf evals * 100)) := by
    simp only [computeStrength]
    rw [if_pos hpos]
  refine ⟨hmain, heps, hmem, ?_, ?_⟩
  · intro hz
    have hmx : maxTimeOf evals = 1 / 1000000 := by
      rw [maxTimeOf, foldl_max_of_le]
      · norm_num
      · intro q hq
        rcases List.mem_map.mp hq with ⟨p, hp, rfl⟩
        rw [hz p hp]
        norm_num
    refine ⟨hmx, ?_⟩
    intro ht
    rw [hmain, ht]
    congr 1
    ring
  · intro s2 h1 h2 h3 h4
    simp only [computeStrength, h1, h2, h3, h4]

/-- Witness for C2: one model with every metric absent scores the rounded
weighted sum of zero defaults with no time penalty. -/
theorem modelStrength_formula_witness :
    computeStrength [("m1", statsZ)] statsZ
      = round2 (0.30 * (statsZ.pseudo_accuracy_pct).getD 0
          + 0.25 * (statsZ.pseudo_precision_pct).getD 0
          + 0.25 * (statsZ.stability_pct).getD 0) :=
  ((modelStrength_formula [("m1", statsZ)] statsZ).2.2.2.1 (by decide)).2 (by decide)

/-- Rounding to four decimals moves a real by at most half of one
ten-thousandth. -/
theorem abs_round4R_sub (x : ℝ) : |round4R x - x| ≤ 1 / 20000 := by
  have h := abs_sub_round (x * 10000)
  have heq : round4R x - x = (((round (x * 10000) : ℤ) : ℝ) - x * 10000) / 10000 := by
    rw [round4R]
    ring
  rw [heq, abs_div, abs_of_pos (show (0 : ℝ) < 10000 by norm_num), abs_sub_comm]
  calc |x * 10000 - ((round (x * 10000) : ℤ) : ℝ)| / 10000
      ≤ (1 / 2) / 10000 := (div_le_div_iff_of_pos_right (by norm_num)).mpr h
    _ = 1 / 20000 := by norm_num

/-- C3. EntropyCalculator: a zero total yields 0; a nonzero total yields
the rounded negated sum of p log2 p over the positive counts only;
zero-count entries are skipped, so dropping them leaves the result
unchanged; a single positive count yields 0; N counts of one yield log2 N
within the rounding tolerance. -/
theorem entropy_spec : ∀ counts : List ℕ,
    (counts.sum = 0 → entropyFromCounts counts = 0)
    ∧ (counts.sum ≠ 0 →
        entropyFromCounts counts
          = round4R (-(((counts.filter (fun c => decide (0 < c))).map
              (fun (c : ℕ) => ((c : ℝ) / (counts.sum : ℝ))
                * Real.logb 2 ((c : ℝ) / (counts.sum : ℝ)))).sum)))
    ∧ entropyFromCounts counts
        = entropyFromCounts (counts.filter (fun c => decide (0 < c)))
    ∧ ((counts.filter (fun c => decide (0 < c))).length = 1 →
        entropyFromCounts counts = 0)
    ∧ (∀ N : ℕ, 0 < N → counts = List.replicate N 1 →
        |entropyFromCounts counts - Real.logb 2 (N : ℝ)| ≤ 1 / 20000) := by
  intro counts
  refine ⟨?_, ?_, ?_, ?_, ?_⟩
  · intro h
    simp [entropyFromCounts, h]
  · intro h
    rw [entropyFromCounts_eq, if_neg h]
  · by_cases h : counts.sum = 0
    · have h2 : (counts.filter (fun c => decide (0 < c))).sum = 0 := by
        rw [sum_filter_pos]
        exact h
      rw [entropyFromCounts_eq, entropyFromCounts_eq, if_pos h, if_pos h2]
    · have h2 : (counts.filter (fun c => decide (0 < c))).sum ≠ 0 := by
        rw [sum_filter_pos]
        exact h
      rw [entropyFromCounts_eq, entropyFromCounts_eq, if_neg h, if_neg h2,
        sum_filter_pos, filter_pos_idem]
  · intro hlen
    rcases List.length_eq_one.mp hlen with ⟨c, hc⟩
    have hcpos : 0 < c := by
      have hmem : c ∈ counts.filter (fun c => decide (0 < c)) := by
        rw [hc]
        exact List.mem_singleton.mpr rfl
      simpa using (List.mem_filter.mp hmem).2
    have hsum : counts.sum = c := by
      rw [← sum_filter_pos, hc]
      simp
    have hne : counts.sum ≠ 0 := by omega
    rw [entropyFromCounts_eq, if_neg hne, hc]
    simp only [List.map_cons, List.map_nil, List.sum_cons, List.sum_nil, add_zero]
    rw [hsum]
    have hc0 : (c : ℝ) ≠ 0 := Nat.cast_ne_zero.mpr (by omega)
    rw [div_self hc0, Real.logb_one, mul_zero, neg_zero]
    simp [round4R]
  · intro N hN hrep
    subst hrep
    have hsum : (List.replicate N (1 : ℕ)).sum = N := by
      rw [List.sum_replicate, smul_eq_mul, mul_one]
    have hne : (List.replicate N (1 : ℕ)).sum ≠ 0 := by omega
    rw [entropyFromCounts_eq, if_neg hne]
    have hfil : (List.replicate N (1 : ℕ)).filter (fun c => decide (0 < c))
        = List.replicate N 1 := List.filter_replicate_of_pos (by simp)
    rw [hfil, hsum, List.map_replicate, List.sum_replicate]
    have hNR : ((N : ℕ) : ℝ) ≠ 0 := Nat.cast_ne_zero.mpr (by omega)
    have hval : -(N • ((((1 : ℕ) : ℝ) / (N : ℝ))
        * Real.logb 2 (((1 : ℕ) : ℝ) / (N : ℝ)))) = Real.logb 2 (N : ℝ) := by
      rw [nsmul_eq_mul, Nat.cast_one, one_div, Real.logb_inv]
      field_simp
    rw [hval]
    exact abs_round4R_sub (Real.logb 2 (N : ℝ))

/-- Witness for C3: concrete zero-total, single-positive-count and
two-ones frequency lists. -/
theorem entropy_spec_witness :
    entropyFromCounts [0] = 0
    ∧ entropyFromCounts [0, 5] = 0
    ∧ |entropyFromCounts (List.replicate 2 1) - Real.logb 2 ((2 : ℕ) : ℝ)|
        ≤ 1 / 20000 :=
  ⟨(entropy_spec [0]).1 (by decide),
   (entropy_spec [0, 5]).2.2.2.1 (by decide),
   (entropy_spec (List.replicate 2 1)).2.2.2.2 2 (by decide) rfl⟩

/-- Looking up a key in a counting reduce yields the number of flows with
that key, or nothing when no flow has it. -/
theorem getA_count_char (key : Flow → String) (l : List Flow) (k : String) :
    getA (l.foldl (fun m f => setA m (key f) ((getA m (key f)).getD 0 + 1)) []) k
      = if l.countP (fun f => decide (key f = k)) = 0 then none
        else some (l.countP (fun f => decide (key f = k))) := by
  have h : getA (l.foldl (fun m f => setA m (key f) ((getA m (key f)).getD 0 + 1)) []) k
      = (l.filter (fun f => decide (key f = k))).foldl
          (fun o f => some (o.getD 0 + 1)) (getA [] k) :=
    getA_foldl_upd key (fun o _ => o.getD 0 + 1) l [] k
  rw [h, List.countP_eq_length_filter]
  cases hf : l.filter (fun f => decide (key f = k)) with
  | nil => simp [getA]
  | cons g t =>
    have h3 : (g :: t).foldl (fun (o : Option ℕ) (_ : Flow) => some (o.getD 0 + 1))
        (getA [] k) = some (1 + t.length) := by
      rw [List.foldl_cons]
      exact foldl_count_some 1 t
    rw [h3, List.length_cons, if_neg (by omega)]
    simp [Nat.add_comm]

/-- C6. DistributionAggregator conservation: on every non-empty flow list
the severity and protocol histogram counts each sum to the number of
flows; buckets are never duplicated; each bucket holds exactly the number
of flows keyed to it, so every flow lands in exactly one bucket per
histogram; an absent severity is bucketed as LOW, an absent protocol as
UNKNOWN, and an observed UNKNOWN severity keeps its own bucket. -/
theorem distribution_conservation : ∀ flows : List Flow, flows ≠ [] →
    sumVals (severityData flows) = flows.length
    ∧ sumVals (protocolData flows) = flows.length
    ∧ (keys (severityData flows)).Nodup
    ∧ (keys (protocolData flows)).Nodup
    ∧ (∀ k, getA (severityData flows) k
        = if flows.countP (fun f => decide (sevKey f = k)) = 0 then none
          else some (flows.countP (fun f => decide (sevKey f = k))))
    ∧ (∀ k, getA (protocolData flows) k
        = if flows.countP (fun f => decide (protoKey f = k)) = 0 then none
          else some (flows.countP (fun f => decide (protoKey f = k))))
    ∧ (∀ f : Flow, f.severity = none → sevKey f = "LOW")
    ∧ (∀ f : Flow, f.proto = none → protoKey f = "UNKNOWN")
    ∧ (∀ f : Flow, f.severity = some "UNKNOWN" → sevKey f = "UNKNOWN") := by
  intro flows _
  have hnil : (keys ([] : List (String × ℕ))).Nodup := by simp [keys]
  refine ⟨?_, ?_, ?_, ?_, ?_, ?_, ?_, ?_, ?_⟩
  · have h := sumVals_foldl_count sevKey flows [] hnil
    simpa [severityData, sumVals] using h
  · have h := sumVals_foldl_count protoKey flows [] hnil
    simpa [protocolData, sumVals] using h
  · exact keys_foldl_upd_nodup sevKey (fun o _ => o.getD 0 + 1) flows [] hnil
  · exact keys_foldl_upd_nodup protoKey (fun o _ => o.getD 0 + 1) flows [] hnil
  · intro k
    exact getA_count_char sevKey flows k
  · intro k
    exact getA_count_char protoKey flows k
  · intro f h
    simp [sevKey, strOr, h]
    rfl
  · intro f h
    simp [protoKey, strOr, h]
    rfl
  · intro f h
    simp [sevKey, strOr, h]
    rfl

/-- Witness for C6: a one-flow batch sums to one in both histograms. -/
theorem distribution_conservation_witness :
    sumVals (severityData [flowSrcA]) = ([flowSrcA] : List Flow).length
    ∧ sumVals (protocolData [flowSrcA]) = ([flowSrcA] : List Flow).length :=
  ⟨(distribution_conservation [flowSrcA] (List.cons_ne_nil _ _)).1,
   (distribution_conservation [flowSrcA] (List.cons_ne_nil _ _)).2.1⟩

/-! Machinery for the top-talker weight accumulation. -/

theorem foldl_weight_some :
    ∀ (t : List Flow) (w : ℕ), 1 ≤ w →
    t.foldl (fun o f => some (weightUpd o f)) (some w)
      = some (w + (t.map (fun f => (f.pkt_count).getD 0)).sum) := by
  intro t
  induction t with
  | nil => intro w _; simp
  | cons f r ih =>
    intro w hw
    have hne : ¬ (some w : Option ℕ).getD 0 + (f.pkt_count).getD 0 = 0 := by
      simp only [Option.getD_some]
      omega
    have hstep : weightUpd (some w) f = w + (f.pkt_count).getD 0 := by
      rw [weightUpd, if_neg hne]
      simp
    calc (f :: r).foldl (fun o f => some (weightUpd o f)) (some w)
        = r.foldl (fun o f => some (weightUpd o f)) (some (weightUpd (some w) f)) := rfl
      _ = r.foldl (fun o f => some (weightUpd o f))
            (some (w + (f.pkt_count).getD 0)) := by rw [hstep]
      _ = some ((w + (f.pkt_count).getD 0)
            + (r.map (fun f => (f.pkt_count).getD 0)).sum) := ih _ (by omega)
      _ = some (w + ((f :: r).map (fun f => (f.pkt_count).getD 0)).sum) := by
            rw [List.map_cons, List.sum_cons]
            congr 1
            omega

theorem foldl_weight_cons (g : Flow) (t : List Flow) :
    (g :: t).foldl (fun o f => some (weightUpd o f)) none
      = some ((((g :: t).map (fun f => (f.pkt_count).getD 0)).sum)
          + (if (g.pkt_count).getD 0 = 0 then 1 else 0)) := by
  have hge : 1 ≤ weightUpd none g := by
    by_cases hg : (g.pkt_count).getD 0 = 0
    · simp [weightUpd, hg]
    · simp [weightUpd, hg]
      omega
  calc (g :: t).foldl (fun o f => some (weightUpd o f)) none
      = t.foldl (fun o f => some (weightUpd o f)) (some (weightUpd none g)) := rfl
    _ = some (weightUpd none g + (t.map (fun f => (f.pkt_count).getD 0)).sum) :=
        foldl_weight_some t _ hge
    _ = some ((((g :: t).map (fun f => (f.pkt_count).getD 0)).sum)
          + (if (g.pkt_count).getD 0 = 0 then 1 else 0)) := by
        rw [List.map_cons, List.sum_cons]
        congr 1
        by_cases hg : (g.pkt_count).getD 0 = 0
        · simp [weightUpd, hg]
          omega
        · simp [weightUpd, hg]

theorem weightMap_char (key : Flow → String) (l : List Flow) (s : String) :
    (getA (l.foldl (fun m f => setA m (key f) (weightUpd (getA m (key f)) f)) []) s
        = none
      ↔ l.filter (fun f => decide (key f = s)) = [])
    ∧ (∀ g t, l.filter (fun f => decide (key f = s)) = g :: t →
        getA (l.foldl (fun m f => setA m (key f) (weightUpd (getA m (key f)) f)) []) s
          = some ((((g :: t).map (fun f => (f.pkt_count).getD 0)).sum)
              + (if (g.pkt_count).getD 0 = 0 then 1 else 0))) := by
  have h : getA (l.foldl (fun m f => setA m (key f) (weightUpd (getA m (key f)) f)) []) s
      = (l.filter (fun f => decide (key f = s))).foldl
          (fun o f => some (weightUpd o f)) none :=
    getA_foldl_upd key weightUpd l [] s
  constructor
  · rw [h]
    cases hf : l.filter (fun f => decide (key f = s)) with
    | nil => simp
    | cons g t =>
      rw [foldl_weight_cons]
      simp
  · intro g t hgt
    rw [h, hgt, foldl_weight_cons]

theorem mem_insertDesc (x : String × ℕ) :
    ∀ (l : List (String × ℕ)) (y : String × ℕ),
    y ∈ insertDesc x l ↔ y = x ∨ y ∈ l := by
  intro l
  induction l with
  | nil => intro y; simp [insertDesc]
  | cons z t ih =>
    intro y
    by_cases hz : x.2 < z.2
    · simp only [insertDesc, if_pos hz, List.mem_cons, ih]
      tauto
    · simp only [insertDesc, if_neg hz, List.mem_cons]

theorem mem_sortDesc :
    ∀ (l : List (String × ℕ)) (y : String × ℕ), y ∈ sortDesc l ↔ y ∈ l := by
  intro l
  induction l with
  | nil => intro y; simp [sortDesc]
  | cons x t ih =>
    intro y
    simp only [sortDesc, mem_insertDesc, ih, List.mem_cons]

theorem getA_of_mem :
    ∀ (m : List (String × ℕ)) (p : String × ℕ),
    p ∈ m → (keys m).Nodup → getA m p.1 = some p.2 := by
  intro m
  induction m with
  | nil => intro p hp; simp at hp
  | cons q t ih =>
    intro p hp hnd
    rcases List.mem_cons.mp hp with h | h
    · subst h
      simp [getA]
    · have hnd2 : (q.1 :: keys t).Nodup := hnd
      have hq : ¬ q.1 = p.1 := by
        intro he
        have hmem : p.1 ∈ keys t := List.mem_map_of_mem Prod.fst h
        exact (List.nodup_cons.mp hnd2).1 (he ▸ hmem)
      rw [getA, if_neg hq]
      exact ih p h (List.nodup_cons.mp hnd2).2

/-- C1 (amended). The accumulated weight of an address equals the sum of
the pkt_count values of its flows, plus one exactly when the first flow
of that address has a zero or absent pkt_count: the or-1 fallback applies to the
whole running total, so it can only fire on the first flow of an address;
the pairs reported by the top-five rankings carry exactly these
accumulated weights. -/
theorem topTalker_weight_amended : ∀ (flows : List Flow) (s : String),
    (getA (srcWeightMap flows) s = none
      ↔ flows.filter (fun f => decide (srcKey f = s)) = [])
    ∧ (∀ g t, flows.filter (fun f => decide (srcKey f = s)) = g :: t →
        getA (srcWeightMap flows) s
          = some ((((g :: t).map (fun f => (f.pkt_count).getD 0)).sum)
              + (if (g.pkt_count).getD 0 = 0 then 1 else 0)))
    ∧ (getA (dstWeightMap flows) s = none
      ↔ flows.filter (fun f => decide (dstKey f = s)) = [])
    ∧ (∀ g t, flows.filter (fun f => decide (dstKey f = s)) = g :: t →
        getA (dstWeightMap flows) s
          = some ((((g :: t).map (fun f => (f.pkt_count).getD 0)).sum)
              + (if (g.pkt_count).getD 0 = 0 then 1 else 0)))
    ∧ (∀ p ∈ topSources flows, getA (srcWeightMap flows) p.1 = some p.2)
    ∧ (∀ p ∈ topDestinations flows, getA (dstWeightMap flows) p.1 = some p.2) := by
  intro flows s
  have hnil : (keys ([] : List (String × ℕ))).Nodup := by simp [keys]
  refine ⟨(weightMap_char srcKey flows s).1, (weightMap_char srcKey flows s).2,
    (weightMap_char dstKey flows s).1, (weightMap_char dstKey flows s).2, ?_, ?_⟩
  · intro p hp
    have h1 : p ∈ sortDesc (srcWeightMap flows) := List.mem_of_mem_take hp
    have h2 : p ∈ srcWeightMap flows := (mem_sortDesc _ p).mp h1
    exact getA_of_mem _ p h2
      (keys_foldl_upd_nodup srcKey weightUpd flows [] hnil)
  · intro p hp
    have h1 : p ∈ sortDesc (dstWeightMap flows) := List.mem_of_mem_take hp
    have h2 : p ∈ dstWeightMap flows := (mem_sortDesc _ p).mp h1
    exact getA_of_mem _ p h2
      (keys_foldl_upd_nodup dstKey weightUpd flows [] hnil)

/-- Weight accumulation as the claim words it: every flow whose pkt_count
is zero or absent contributes exactly one, so an address with only such
flows would weigh its flow count.  Named from the claim for comparison
against the accumulation the code performs. -/
def specSrcWeight (flows : List Flow) (s : String) : ℕ :=
  ((flows.filter (fun f => decide (srcKey f = s))).map
    (fun f => if (f.pkt_count).getD 0 = 0 then 1 else (f.pkt_count).getD 0)).sum

/-- C1 counterexample: two flows from address A, both without pkt_count.
The claim demands weight 2 (one per zero flow) while the code
reports weight 1, because the or-1 fallback applies to the running total
and a total of 1 is already truthy. -/
theorem topTalker_claim_counterexample :
    topSources [flowSrcA, flowSrcA] = [("A", 1)]
    ∧ specSrcWeight [flowSrcA, flowSrcA] "A" = 2 := by
  constructor
  · rfl
  · rfl

/-- Witness for the amended C1 at the concrete two-flow input. -/
theorem topTalker_weight_amended_witness :
    getA (srcWeightMap [flowSrcA, flowSrcA]) "A"
      = some ((([flowSrcA, flowSrcA]).map (fun f => (f.pkt_count).getD 0)).sum
          + (if (flowSrcA.pkt_count).getD 0 = 0 then 1 else 0)) :=
  (topTalker_weight_amended [flowSrcA, flowSrcA] "A").2.1 flowSrcA [flowSrcA]
    (by decide)

/-! Guarded extremal selectors: shared derivations. -/

theorem guardMin_none_iff {k : Type} [LinearOrder k] (key : Flow → k) (l : List Flow) :
    (if l.length = 0 then none else pickMin key l) = none ↔ l = [] := by
  by_cases hl : l = []
  · subst hl
    simp
  · rcases pickMin_spec key l hl with ⟨y, pre, post, hres, _, _, _⟩
    rw [if_neg (fun h => hl (List.length_eq_zero.mp h)), hres]
    simp [hl]

theorem guardMax_none_iff {k : Type} [LinearOrder k] (key : Flow → k) (l : List Flow) :
    (if l.length = 0 then none else pickMax key l) = none ↔ l = [] := by
  by_cases hl : l = []
  · subst hl
    simp
  · rcases pickMax_spec key l hl with ⟨y, pre, post, hres, _, _, _⟩
    rw [if_neg (fun h => hl (List.length_eq_zero.mp h)), hres]
    simp [hl]

theorem guardMin_char {k : Type} [LinearOrder k] (key : Flow → k) (l : List Flow)
    (hl : l ≠ []) :
    ∃ y pre post, (if l.length = 0 then none else pickMin key l) = some y
      ∧ l = pre ++ y :: post ∧ (∀ z ∈ pre, key y < key z)
      ∧ (∀ z ∈ l, key y ≤ key z) := by
  rcases pickMin_spec key l hl with ⟨y, pre, post, hres, hsplit, hpre, hall⟩
  refine ⟨y, pre, post, ?_, hsplit, hpre, hall⟩
  rw [if_neg (fun h => hl (List.length_eq_zero.mp h))]
  exact hres

theorem guardMax_char {k : Type} [LinearOrder k] (key : Flow → k) (l : List Flow)
    (hl : l ≠ []) :
    ∃ y pre post, (if l.length = 0 then none else pickMax key l) = some y
      ∧ l = pre ++ y :: post ∧ (∀ z ∈ pre, key z < key y)
      ∧ (∀ z ∈ l, key z ≤ key y) := by
  rcases pickMax_spec key l hl with ⟨y, pre, post, hres, hsplit, hpre, hall⟩
  refine ⟨y, pre, post, ?_, hsplit, hpre, hall⟩
  rw [if_neg (fun h => hl (List.length_eq_zero.mp h))]
  exact hres

theorem minKeyTop_pos (g : Flow → Option ℕ) (mk : Flow → WithTop ℕ)
    (hmk : ∀ f, mk f = ⊤ ↔ (g f).getD 0 = 0) (l : List Flow)
    (hex : ∃ f ∈ l, 0 < (g f).getD 0) :
    ∀ y, (if l.length = 0 then none else pickMin mk l) = some y →
      (g y).getD 0 ≠ 0 := by
  rcases hex with ⟨f, hf, hpos⟩
  have hl : l ≠ [] := by
    intro h
    subst h
    simp at hf
  rcases pickMin_spec mk l hl with ⟨y2, pre, post, hres, hsplit, hpre, hall⟩
  intro y hy
  rw [if_neg (fun h => hl (List.length_eq_zero.mp h)), hres] at hy
  have hyy : y2 = y := Option.some.inj hy
  subst hyy
  intro h0
  have hytop : mk y2 = ⊤ := (hmk y2).mpr h0
  have hkf : mk f ≠ ⊤ := by
    rw [Ne, hmk f]
    omega
  have hle := hall f hf
  rw [hytop] at hle
  exact hkf (top_le_iff.mp hle)

theorem minKeyTop_head (g : Flow → Option ℕ) (mk : Flow → WithTop ℕ)
    (hmk : ∀ f, mk f = ⊤ ↔ (g f).getD 0 = 0) (l : List Flow)
    (hz : ∀ f ∈ l, (g f).getD 0 = 0) :
    (if l.length = 0 then none else pickMin mk l) = l.head? := by
  cases l with
  | nil => rfl
  | cons b t =>
    have hl : (b :: t : List Flow) ≠ [] := List.cons_ne_nil _ _
    rcases pickMin_spec mk (b :: t) hl with ⟨y, pre, post, hres, hsplit, hpre, hall⟩
    have hmem : y ∈ b :: t := by
      rw [hsplit]
      exact List.mem_append_right _ (List.mem_cons_self _ _)
    have hytop : mk y = ⊤ := (hmk y).mpr (hz y hmem)
    have hpre_nil : pre = [] := by
      cases pre with
      | nil => rfl
      | cons p pr =>
        exfalso
        have hp : mk y < mk p := hpre p (List.mem_cons_self _ _)
        have hptop : mk p = ⊤ := (hmk p).mpr (hz p (by
          rw [hsplit]
          exact List.mem_append_left _ (List.mem_cons_self _ _)))
        rw [hytop, hptop] at hp
        exact lt_irrefl _ hp
    subst hpre_nil
    rw [List.nil_append] at hsplit
    have hb : b = y := (List.cons.injEq _ _ _ _ ▸ hsplit : _ ∧ _).1
    rw [if_neg (by simp), hres, List.head?_cons, hb]

/-- C4 (amended). ExtremeFlowSelector: the selectors return none exactly
on the empty list, return the single element on a singleton, and
otherwise return the first flow attaining the extreme of the coerced key
(max coerces a missing count to 0; min coerces a missing count, and a
present zero which is equally falsy, to Infinity); consequently the min
selector never returns a flow with a zero-or-absent count when some flow
has the field with a positive value. -/
theorem extremeFlow_amended : ∀ l : List Flow,
    (max_pkt_flow l = none ↔ l = [])
    ∧ (min_pkt_flow l = none ↔ l = [])
    ∧ (max_byte_flow l = none ↔ l = [])
    ∧ (min_byte_flow l = none ↔ l = [])
    ∧ (∀ f : Flow, max_pkt_flow [f] = some f ∧ min_pkt_flow [f] = some f
        ∧ max_byte_flow [f] = some f ∧ min_byte_flow [f] = some f)
    ∧ (l ≠ [] → ∃ y pre post, max_pkt_flow l = some y ∧ l = pre ++ y :: post
        ∧ (∀ z ∈ pre, pktMaxKey z < pktMaxKey y)
        ∧ (∀ z ∈ l, pktMaxKey z ≤ pktMaxKey y))
    ∧ (l ≠ [] → ∃ y pre post, min_pkt_flow l = some y ∧ l = pre ++ y :: post
        ∧ (∀ z ∈ pre, pktMinKey y < pktMinKey z)
        ∧ (∀ z ∈ l, pktMinKey y ≤ pktMinKey z))
    ∧ (l ≠ [] → ∃ y pre post, max_byte_flow l = some y ∧ l = pre ++ y :: post
        ∧ (∀ z ∈ pre, byteMaxKey z < byteMaxKey y)
        ∧ (∀ z ∈ l, byteMaxKey z ≤ byteMaxKey y))
    ∧ (l ≠ [] → ∃ y pre post, min_byte_flow l = some y ∧ l = pre ++ y :: post
        ∧ (∀ z ∈ pre, byteMinKey y < byteMinKey z)
        ∧ (∀ z ∈ l, byteMinKey y ≤ byteMinKey z))
    ∧ ((∃ f ∈ l, 0 < (f.pkt_count).getD 0) →
        ∀ y, min_pkt_flow l = some y →
          y.pkt_count ≠ none ∧ (y.pkt_count).getD 0 ≠ 0)
    ∧ ((∃ f ∈ l, 0 < (f.byte_count).getD 0) →
        ∀ y, min_byte_flow l = some y →
          y.byte_count ≠ none ∧ (y.byte_count).getD 0 ≠ 0) := by
  intro l
  refine ⟨guardMax_none_iff pktMaxKey l, guardMin_none_iff pktMinKey l,
    guardMax_none_iff byteMaxKey l, guardMin_none_iff byteMinKey l,
    fun f => ⟨rfl, rfl, rfl, rfl⟩,
    fun hl => guardMax_char pktMaxKey l hl,
    fun hl => guardMin_char pktMinKey l hl,
    fun hl => guardMax_char byteMaxKey l hl,
    fun hl => guardMin_char byteMinKey l hl, ?_, ?_⟩
  · intro hex y hy
    have h := minKeyTop_pos (fun f => f.pkt_count) pktMinKey
      pktMinKey_eq_top_iff l hex y hy
    refine ⟨?_, h⟩
    intro hn
    apply h
    show (y.pkt_count).getD 0 = 0
    rw [hn]
    rfl
  · intro hex y hy
    have h := minKeyTop_pos (fun f => f.byte_count) byteMinKey
      byteMinKey_eq_top_iff l hex y hy
    refine ⟨?_, h⟩
    intro hn
    apply h
    show (y.byte_count).getD 0 = 0
    rw [hn]
    rfl

/-- C4 counterexample: the list holds one flow without the pkt_count
field and one flow with pkt_count present but zero.  The second record
has the field, yet the min selector reports the first, field-less flow as
minimal, refuting the claim that a record lacking the field is never
reported as minimal when some record has the field. -/
theorem extreme_min_counterexample :
    min_pkt_flow [flowEmpty, flowZeroP] = some flowEmpty
    ∧ flowEmpty.pkt_count = none
    ∧ (flowZeroP.pkt_count).isSome = true
    ∧ flowEmpty ≠ flowZeroP := by
  refine ⟨?_, rfl, rfl, by decide⟩
  rfl

/-- Witness for the amended C4 at a concrete two-flow input. -/
theorem extremeFlow_amended_witness :
    (∃ y pre post, max_pkt_flow [flowZeroP, flowPos] = some y
      ∧ [flowZeroP, flowPos] = pre ++ y :: post
      ∧ (∀ z ∈ pre, pktMaxKey z < pktMaxKey y)
      ∧ (∀ z ∈ [flowZeroP, flowPos], pktMaxKey z ≤ pktMaxKey y))
    ∧ (flowPos.pkt_count ≠ none ∧ (flowPos.pkt_count).getD 0 ≠ 0) :=
  ⟨(extremeFlow_amended [flowZeroP, flowPos]).2.2.2.2.2.1 (by decide),
   (extremeFlow_amended [flowZeroP, flowPos]).2.2.2.2.2.2.2.2.2.1
     ⟨flowPos, by decide, by decide⟩ flowPos (by rfl)⟩

/-- C9. In the min selectors a present-but-zero count is coerced exactly
like an absent one, so when some flow has a positive count the selector
never returns a flow whose count is zero or absent, and when in every flow the
count is zero or absent it returns the first flow of the list. -/
theorem min_selector_zero_coercion : ∀ l : List Flow,
    ((∃ f ∈ l, 0 < (f.pkt_count).getD 0) →
      ∀ y, min_pkt_flow l = some y → (y.pkt_count).getD 0 ≠ 0)
    ∧ ((∀ f ∈ l, (f.pkt_count).getD 0 = 0) → min_pkt_flow l = l.head?)
    ∧ ((∃ f ∈ l, 0 < (f.byte_count).getD 0) →
      ∀ y, min_byte_flow l = some y → (y.byte_count).getD 0 ≠ 0)
    ∧ ((∀ f ∈ l, (f.byte_count).getD 0 = 0) → min_byte_flow l = l.head?) :=
  fun l =>
    ⟨fun hex y hy => minKeyTop_pos (fun f => f.pkt_count) pktMinKey
        pktMinKey_eq_top_iff l hex y hy,
     fun hz => minKeyTop_head (fun f => f.pkt_count) pktMinKey
        pktMinKey_eq_top_iff l hz,
     fun hex y hy => minKeyTop_pos (fun f => f.byte_count) byteMinKey
        byteMinKey_eq_top_iff l hex y hy,
     fun hz => minKeyTop_head (fun f => f.byte_count) byteMinKey
        byteMinKey_eq_top_iff l hz⟩

/-- Witness for C9: with a positive-pkt flow present the min selector
avoids the zero flow, and with only zero flows it returns the head. -/
theorem min_selector_zero_coercion_witness :
    ((min_pkt_flow [flowZeroP, flowPos] = some flowPos →
        (flowPos.pkt_count).getD 0 ≠ 0))
    ∧ min_pkt_flow [flowZeroP, flowEmpty] = ([flowZeroP, flowEmpty] : List Flow).head? :=
  ⟨fun hy => (min_selector_zero_coercion [flowZeroP, flowPos]).1
      ⟨flowPos, by decide, by decide⟩ flowPos hy,
   (min_selector_zero_coercion [flowZeroP, flowEmpty]).2.1 (by decide)⟩
end NetGuard
